import Mathlib

/-!
Verification of the statistics-aggregation core of the Exchange_Rates
repository (`src/main.go`): the `analyzeData` fold over per-day currency
records and the averaging/printing loop in `main`.

The embedding represents Go `float64` values by `GoVal`: exact rationals
together with the IEEE special values NaN and ±Inf.  Comparison (`<`, `>`)
and special-value propagation in `+` and `/` follow IEEE-754 semantics as
used by Go; finite arithmetic is exact rational arithmetic (the embedding
idealizes away rounding of finite intermediate results, which no claim
depends on).
-/

set_option maxHeartbeats 1000000
set_option exponentiation.threshold 1100
set_option maxRecDepth 8192

namespace ExchangeRates

/-- A Go `float64` value: NaN, a signed infinity (`neg = true` for `-Inf`),
or a finite value represented exactly as a rational. -/
inductive GoVal where
  | nan : GoVal
  | inf (neg : Bool) : GoVal
  | fin (q : ℚ) : GoVal
  deriving DecidableEq

namespace GoVal

/-- IEEE `<` as used by Go's `value < stats.MinValue`: any comparison with
NaN is false; `-Inf` is below everything else, `+Inf` above. -/
def lt : GoVal → GoVal → Bool
  | .nan, _ => false
  | _, .nan => false
  | .inf s, .inf t => s && !t
  | .inf s, .fin _ => s
  | .fin _, .inf t => !t
  | .fin a, .fin b => decide (a < b)

/-- IEEE `>` as used by Go's `value > stats.MaxValue`: `a > b` iff `b < a`. -/
def gt (a b : GoVal) : Bool := lt b a

/-- IEEE `≤`: false whenever NaN is involved, the numeric order otherwise. -/
def le : GoVal → GoVal → Bool
  | .nan, _ => false
  | _, .nan => false
  | .inf s, .inf t => s || !t
  | .inf s, .fin _ => s
  | .fin _, .inf t => !t
  | .fin a, .fin b => decide (a ≤ b)

/-- Exact rational addition, spelled with `mkRat` so that it is
kernel-reducible (`Rat.add` is `@[irreducible]`); it agrees with `+` on `ℚ`
by `Rat.add_def'`. -/
def qadd (a b : ℚ) : ℚ := mkRat (a.num * b.den + b.num * a.den) (a.den * b.den)

/-- IEEE addition with exact finite arithmetic: NaN propagates, opposite
infinities give NaN, finite values add exactly. -/
def add : GoVal → GoVal → GoVal
  | .nan, _ => .nan
  | _, .nan => .nan
  | .inf s, .inf t => if s = t then .inf s else .nan
  | .inf s, .fin _ => .inf s
  | .fin _, .inf t => .inf t
  | .fin a, .fin b => .fin (qadd a b)

/-- Division by a Go `int` converted to `float64`, as in
`stats.TotalValue / float64(stats.Count)`: NaN and infinities propagate;
a finite value divided by `0` follows IEEE (`0/0 = NaN`, `q/0 = ±Inf`),
and otherwise the quotient is the exact rational `q / n`, spelled with
`mkRat` so that it is kernel-reducible. -/
def divNat : GoVal → Nat → GoVal
  | .nan, _ => .nan
  | .inf s, _ => .inf s
  | .fin q, n =>
      if n = 0 then (if q = 0 then .nan else .inf (decide (q < 0)))
      else .fin (mkRat q.num (q.den * n))

theorem lt_irrefl (a : GoVal) : lt a a = false := by
  cases a with
  | nan => rfl
  | inf s => cases s <;> rfl
  | fin q => simp [lt]

theorem le_refl {a : GoVal} (h : a ≠ nan) : le a a = true := by
  cases a with
  | nan => exact absurd rfl h
  | inf s => cases s <;> rfl
  | fin q => simp [le]

theorem lt_imp_le {a b : GoVal} (h : lt a b = true) : le a b = true := by
  cases a <;> cases b <;> simp_all [lt, le]
  exact le_of_lt h

theorem le_trans {a b c : GoVal} (hab : le a b = true) (hbc : le b c = true) :
    le a c = true := by
  cases a <;> cases b <;> cases c <;> simp_all [le]
  · rename_i s t u
    cases s <;> cases t <;> cases u <;> simp_all
  · exact hab.trans hbc

theorem le_of_not_lt {a b : GoVal} (ha : a ≠ nan) (hb : b ≠ nan)
    (h : lt a b = false) : le b a = true := by
  cases a <;> cases b <;> simp_all [lt, le]
  rename_i s t
  cases s <;> cases t <;> simp_all

end GoVal

/-! ### Embedding of `strconv.ParseFloat`

`analyzeData` calls `strconv.ParseFloat(valueStr, 64)` and skips the record
when `err != nil`.  The functions below embed the acceptance grammar of
`strconv`'s `special` and `readFloat` (optional sign; `inf`/`infinity` with
optional sign and `nan` without, case-insensitive; decimal or `0x` hex
mantissa with at most one dot and at least one digit; optional `e`/mandatory
`p` exponent with at least one digit; digit-separator underscores validated
by `underscoreOK`), building the exact rational value instead of the rounded
`float64`.  A syntactically valid value whose magnitude rounds to infinity
makes `ParseFloat` return `ErrRange`, hence `err != nil`, so it is mapped to
`none` as well. -/

/-- Go's byte-level `lower`: set bit `0x20`. -/
def goLower (c : Char) : Char := Char.ofNat (c.toNat ||| 0x20)

/-- Value of a decimal digit character. -/
def decVal (c : Char) : Option Nat :=
  if '0' ≤ c ∧ c ≤ '9' then some (c.toNat - '0'.toNat) else none

/-- Value of a hexadecimal digit character (case-insensitive). -/
def hexVal (c : Char) : Option Nat :=
  if '0' ≤ c ∧ c ≤ '9' then some (c.toNat - '0'.toNat)
  else if 'a' ≤ goLower c ∧ goLower c ≤ 'f' then
    some (10 + ((goLower c).toNat - 'a'.toNat))
  else none

/-- Digit value in the mantissa base (10 or 16). -/
def digitVal (base : Nat) (c : Char) : Option Nat :=
  if base = 16 then hexVal c else decVal c

/-- Consume an optional leading sign; returns (negative, sawSign, rest). -/
def readSign : List Char → Bool × Bool × List Char
  | [] => (false, false, [])
  | c :: cs =>
    if c = '+' then (false, true, cs)
    else if c = '-' then (true, true, cs)
    else (false, false, c :: cs)

/-- `strconv`'s `special`: the whole string is `inf`/`infinity` with an
optional sign, or `nan` without a sign, matched case-insensitively. -/
def special (cs : List Char) : Option GoVal :=
  let (neg, sawSign, rest) := readSign cs
  if rest.map goLower = "inf".data ∨ rest.map goLower = "infinity".data then
    some (.inf neg)
  else if sawSign = false ∧ rest.map goLower = "nan".data then
    some .nan
  else none

/-- Result of the mantissa loop of `readFloat`. -/
structure MantScan where
  sawdot : Bool
  sawdig : Bool
  us : Bool
  mant : Nat
  adot : Nat
  rest : List Char

/-- Mantissa loop of `readFloat`: digits of the base with at most one dot,
underscores recorded and skipped; stops at a second dot or any other
character.  `adot` counts digits after the dot. -/
def scanMant (base : Nat) (sawdot sawdig us : Bool) (mant adot : Nat) :
    List Char → MantScan
  | [] => ⟨sawdot, sawdig, us, mant, adot, []⟩
  | c :: cs =>
    if c = '_' then scanMant base sawdot sawdig true mant adot cs
    else if c = '.' then
      if sawdot then ⟨sawdot, sawdig, us, mant, adot, c :: cs⟩
      else scanMant base true sawdig us mant adot cs
    else
      match digitVal base c with
      | some d =>
          scanMant base sawdot true us (mant * base + d)
            (if sawdot then adot + 1 else adot) cs
      | none => ⟨sawdot, sawdig, us, mant, adot, c :: cs⟩

/-- Result of the exponent-digit loop. -/
structure ExpScan where
  us : Bool
  e : Nat
  rest : List Char

/-- Exponent-digit loop: decimal digits and underscores, stopping at any
other character; as in Go, the accumulator stops growing at `10000`. -/
def scanExpDigits (us : Bool) (e : Nat) : List Char → ExpScan
  | [] => ⟨us, e, []⟩
  | c :: cs =>
    if c = '_' then scanExpDigits true e cs
    else
      match decVal c with
      | some d => scanExpDigits us (if e < 10000 then e * 10 + d else e) cs
      | none => ⟨us, e, c :: cs⟩

/-- Exponent part after the `e`/`p` marker: optional sign, then at least one
digit, then digits and underscores.  Returns the signed exponent, whether an
underscore was seen, and the unconsumed remainder. -/
def parseExp (cs : List Char) : Option (Int × Bool × List Char) :=
  let (eneg, _, cs1) := readSign cs
  match cs1 with
  | c :: _ =>
    if (decVal c).isSome then
      let r := scanExpDigits false 0 cs1
      some ((if eneg then -(r.e : Int) else (r.e : Int)), r.us, r.rest)
    else none
  | [] => none

/-- Body of `strconv.underscoreOK`'s scanning loop: `saw` is `'0'` after a
digit (or base prefix), `'_'` after an underscore, `'!'` after anything
else, `'^'` at the start. -/
def usLoop (hex : Bool) (saw : Char) : List Char → Bool
  | [] => decide (saw ≠ '_')
  | c :: cs =>
    if ('0' ≤ c ∧ c ≤ '9') ∨ (hex = true ∧ 'a' ≤ goLower c ∧ goLower c ≤ 'f') then
      usLoop hex '0' cs
    else if c = '_' then
      if saw = '0' then usLoop hex '_' cs else false
    else if saw = '_' then false
    else usLoop hex '!' cs

/-- `strconv.underscoreOK`: underscores may appear only between digits, or
between a base prefix and a digit. -/
def underscoreOK (cs : List Char) : Bool :=
  let cs1 := match cs with
    | c :: rest => if c = '-' ∨ c = '+' then rest else cs
    | [] => cs
  match cs1 with
  | '0' :: x :: rest =>
    if goLower x = 'b' ∨ goLower x = 'o' ∨ goLower x = 'x' then
      usLoop (decide (goLower x = 'x')) '0' rest
    else usLoop false '^' cs1
  | _ => usLoop false '^' cs1

/-- Exact value `±mant * b^ee` of a scientific-notation literal, as a
rational; spelled with `mkRat` so that it is kernel-reducible. -/
def sciValue (neg : Bool) (mant b : Nat) (ee : Int) : ℚ :=
  let num : Int := if neg then -(mant : Int) else (mant : Int)
  if 0 ≤ ee then mkRat (num * ((b ^ ee.toNat : Nat) : Int)) 1
  else mkRat num (b ^ (-ee).toNat)

/-- The exponent part of `readFloat` at the unconsumed mantissa remainder:
a `p` exponent is mandatory for hex, an `e` exponent optional for decimal,
and the string must end right after it. -/
def expPartOf (base : Nat) (rest : List Char) : Option (Int × Bool) :=
  match rest with
  | [] => if base = 16 then none else some (0, false)
  | c :: r =>
    if base = 16 then
      if goLower c = 'p' then
        match parseExp r with
        | some (e, us, []) => some (e, us)
        | _ => none
      else none
    else
      if goLower c = 'e' then
        match parseExp r with
        | some (e, us, []) => some (e, us)
        | _ => none
      else none

/-- The mantissa-and-exponent part of `readFloat` after the sign and base
prefix have been consumed: scan the mantissa, require a digit, parse the
exponent part, validate underscores against the whole input `cs`, and build
the exact value. -/
def readFloatNum (cs : List Char) (neg : Bool) (base : Nat)
    (cs2 : List Char) : Option ℚ :=
  let m := scanMant base false false false 0 0 cs2
  if m.sawdig = false then none
  else
    match expPartOf base m.rest with
    | none => none
    | some (e, eus) =>
      if (m.us || eus) && !underscoreOK cs then none
      else if base = 16 then
        some (sciValue neg m.mant 2 (e - 4 * (m.adot : Int)))
      else
        some (sciValue neg m.mant 10 (e - (m.adot : Int)))

/-- `strconv.readFloat` followed by exact value construction: the exact
rational value of a syntactically valid mantissa and exponent, or `none`
when no digit was seen, the string is not fully consumed, a hex float lacks
its mandatory `p` exponent, or an underscore is misplaced. -/
def readFloat (cs : List Char) : Option ℚ :=
  let (neg, _, cs1) := readSign cs
  match cs1 with
  | c :: x :: rest =>
    if c = '0' ∧ goLower x = 'x' then readFloatNum cs neg 16 rest
    else readFloatNum cs neg 10 (c :: x :: rest)
  | _ => readFloatNum cs neg 10 cs1

/-- Smallest magnitude that `float64` rounding sends to infinity: the
midpoint `(2^54 - 1) * 2^970` between the largest finite `float64` and
`2^1024` (ties round to even, i.e. to infinity). -/
def overflowBound : ℚ := mkRat (((2 ^ 54 - 1) * 2 ^ 970 : Nat) : Int) 1

/-- Whether a syntactically valid finite value rounds to infinity, in which
case `ParseFloat` reports `ErrRange`: `|q| ≥ overflowBound`. -/
def overflows (q : ℚ) : Bool :=
  !Rat.blt q overflowBound || !Rat.blt (Rat.neg overflowBound) q

/-- `strconv.ParseFloat(s, 64)` as seen by `analyzeData`: `none` exactly
when `err != nil` (syntax error, or a finite syntax whose magnitude
overflows to infinity, which Go reports as `ErrRange`). -/
def goParseFloat (s : String) : Option GoVal :=
  match special s.data with
  | some v => some v
  | none =>
    match readFloat s.data with
    | none => none
    | some q => if overflows q then none else some (.fin q)

/-- `strings.Replace(valute.Value, ",", ".", -1)`: with a one-character
pattern and replacement, replacing all occurrences is exactly a character
map. -/
def normalizeRate (s : String) : String :=
  ⟨s.data.map (fun c => if c = ',' then '.' else c)⟩

/-! ### Data model and the `analyzeData` fold (src/main.go) -/

/-- `Valute`: one currency record from a day's feed. -/
structure Valute where
  id : String
  numCode : String
  charCode : String
  nominal : Int
  name : String
  value : String
  deriving DecidableEq

/-- `ValCurs`: one day's parsed feed, a date and its currency records. -/
structure ValCurs where
  date : String
  valutes : List Valute
  deriving DecidableEq

/-- `CurrencyStats`: the running per-currency aggregate.  `average` is the
Go zero value `0.0` until `main` computes it. -/
structure CurrencyStats where
  maxValue : GoVal
  minValue : GoVal
  maxDate : String
  minDate : String
  totalValue : GoVal
  count : Nat
  average : GoVal
  nominal : Int
  currencyName : String
  numCode : String
  charCode : String
  deriving DecidableEq

/-- The `globalStats` table, `map[string]*CurrencyStats`, modelled as an
association list with unique keys. -/
abbrev StatsMap := List (String × CurrencyStats)

/-- Map lookup `globalStats[code]`. -/
def statsFind : StatsMap → String → Option CurrencyStats
  | [], _ => none
  | (k, v) :: rest, c => if k = c then some v else statsFind rest c

/-- Map write `globalStats[code] = stats` (covers both Go's insertion of a
new key and the in-place mutation of an existing entry's fields). -/
def statsSet : StatsMap → String → CurrencyStats → StatsMap
  | [], c, s => [(c, s)]
  | (k, v) :: rest, c, s =>
      if k = c then (c, s) :: rest else (k, v) :: statsSet rest c s

/-- The local, non-fatal failure of a fold: `valute.Value` was not numeric. -/
inductive SkipReason where
  | notNumeric : SkipReason
  deriving DecidableEq

/-- The fresh aggregate inserted when a currency is first observed
(src/main.go lines 102–113). -/
def initStats (value : GoVal) (date : String) (v : Valute) : CurrencyStats :=
  { maxValue := value
    minValue := value
    maxDate := date
    minDate := date
    totalValue := value
    count := 1
    average := GoVal.fin 0
    nominal := v.nominal
    currencyName := v.name
    numCode := v.numCode
    charCode := v.charCode }

/-- The in-place update of an existing aggregate (src/main.go lines
114–125): sum and count always grow; max/maxDate move only on strict `>`,
min/minDate only on strict `<`. -/
def updStats (stats : CurrencyStats) (value : GoVal) (date : String) : CurrencyStats :=
  { stats with
    totalValue := stats.totalValue.add value
    count := stats.count + 1
    maxValue := if value.gt stats.maxValue then value else stats.maxValue
    maxDate := if value.gt stats.maxValue then date else stats.maxDate
    minValue := if value.lt stats.minValue then value else stats.minValue
    minDate := if value.lt stats.minValue then date else stats.minDate }

/-- One iteration of the loop body of `analyzeData` (src/main.go lines
91–126): normalize the comma, parse, skip with a `notNumeric` signal on
failure (the code logs and `continue`s), otherwise insert or update. -/
def foldValuteE (date : String) (m : StatsMap) (valute : Valute) :
    StatsMap × Option SkipReason :=
  match goParseFloat (normalizeRate valute.value) with
  | none => (m, some .notNumeric)
  | some value =>
    match statsFind m valute.charCode with
    | none => (statsSet m valute.charCode (initStats value date valute), none)
    | some stats => (statsSet m valute.charCode (updStats stats value date), none)

/-- The state effect of one loop iteration. -/
def foldValute (date : String) (m : StatsMap) (valute : Valute) : StatsMap :=
  (foldValuteE date m valute).1

/-- `analyzeData(valCurs)`: fold every record of the day into the table. -/
def analyzeData (m : StatsMap) (vc : ValCurs) : StatsMap :=
  vc.valutes.foldl (foldValute vc.date) m

/-- The driver loop of `main`: fold each successfully fetched and parsed
day in order into the (initially empty) table. -/
def runAll (m : StatsMap) (batches : List ValCurs) : StatsMap :=
  batches.foldl analyzeData m

/-- The output loop of `main` (lines 153–158): set
`stats.Average = stats.TotalValue / float64(stats.Count)` on every entry. -/
def finalizeStats (m : StatsMap) : StatsMap :=
  m.map (fun p => (p.1, { p.2 with average := p.2.totalValue.divNat p.2.count }))

/-! ### Derived per-currency view of the fold -/

/-- A fold sequence: the records of all processed days, each tagged with
its batch's date, in processing order. -/
def foldRecords (m : StatsMap) (l : List (String × Valute)) : StatsMap :=
  l.foldl (fun m p => foldValute p.1 m p.2) m

/-- The transition of a single currency's (optional) aggregate under one
record of that currency. -/
def stepAgg (date : String) (v : Valute) : Option CurrencyStats → Option CurrencyStats
  | o =>
    match goParseFloat (normalizeRate v.value) with
    | none => o
    | some value =>
      match o with
      | none => some (initStats value date v)
      | some stats => some (updStats stats value date)

/-- Fold of a single currency's aggregate over a list of records. -/
def aggRun (o : Option CurrencyStats) (l : List (String × Valute)) :
    Option CurrencyStats :=
  l.foldl (fun o p => stepAgg p.1 p.2 o) o

/-- Whether a record's rate text parses. -/
def recOk (p : String × Valute) : Bool :=
  (goParseFloat (normalizeRate p.2.value)).isSome

/-- The records of currency `c` in a fold sequence. -/
def recsOf (c : String) (l : List (String × Valute)) : List (String × Valute) :=
  l.filter (fun p => p.2.charCode = c)

/-- The successfully parsed records of currency `c` in a fold sequence. -/
def succRecsOf (c : String) (l : List (String × Valute)) : List (String × Valute) :=
  (recsOf c l).filter recOk

/-- The values obtained by parsing each record of a list, in order. -/
def valsOf (l : List (String × Valute)) : List GoVal :=
  l.filterMap (fun p => goParseFloat (normalizeRate p.2.value))

/-- The parsed values folded into currency `c`, in order. -/
def parsedValues (c : String) (l : List (String × Valute)) : List GoVal :=
  valsOf (recsOf c l)

/-- The (value, date) pairs folded into an aggregate from a record list. -/
def valDates (l : List (String × Valute)) : List (GoVal × String) :=
  l.filterMap (fun p => (goParseFloat (normalizeRate p.2.value)).map (fun v => (v, p.1)))

/-- The count stored for currency `c`, `0` when no aggregate exists. -/
def countOf (m : StatsMap) (c : String) : Nat :=
  match statsFind m c with
  | none => 0
  | some s => s.count

/-- All records of a batch list, each tagged with its batch's date, in
processing order. -/
def flatten (batches : List ValCurs) : List (String × Valute) :=
  batches.flatMap (fun b => b.valutes.map (fun v => (b.date, v)))

/-! ### Bridge lemmas -/

theorem statsFind_statsSet (m : StatsMap) (k c : String) (s : CurrencyStats) :
    statsFind (statsSet m k s) c = if k = c then some s else statsFind m c := by
  induction m with
  | nil => simp [statsSet, statsFind]
  | cons p rest ih =>
    obtain ⟨k', v'⟩ := p
    by_cases h : k' = k
    · subst h
      simp only [statsSet, if_pos rfl, statsFind]
      by_cases hc : k' = c <;> simp [statsFind, hc]
    · simp only [statsSet, if_neg h, statsFind]
      by_cases hc : k' = c
      · subst hc
        have hne : ¬ k = k' := fun hkc => h (Eq.symm hkc)
        simp [statsFind, if_neg hne]
      · simp [statsFind, hc, ih]

theorem foldValute_find (d : String) (m : StatsMap) (v : Valute) (c : String) :
    statsFind (foldValute d m v) c =
      if v.charCode = c then stepAgg d v (statsFind m c) else statsFind m c := by
  unfold foldValute foldValuteE stepAgg
  cases hp : goParseFloat (normalizeRate v.value) with
  | none => by_cases h : v.charCode = c <;> simp [h]
  | some value =>
    by_cases h : v.charCode = c
    · subst h
      cases hf : statsFind m v.charCode <;> simp [hf, statsFind_statsSet]
    · cases hf : statsFind m v.charCode <;> simp [hf, statsFind_statsSet, h]

theorem foldRecords_find (l : List (String × Valute)) (m : StatsMap) (c : String) :
    statsFind (foldRecords m l) c = aggRun (statsFind m c) (recsOf c l) := by
  induction l generalizing m with
  | nil => rfl
  | cons p l ih =>
    have hstep : foldRecords m (p :: l) = foldRecords (foldValute p.1 m p.2) l := rfl
    rw [hstep, ih, foldValute_find]
    by_cases h : p.2.charCode = c <;> simp [recsOf, List.filter_cons, h, aggRun]

theorem analyzeData_eq (m : StatsMap) (vc : ValCurs) :
    analyzeData m vc = foldRecords m (vc.valutes.map (fun v => (vc.date, v))) := by
  unfold analyzeData foldRecords
  rw [List.foldl_map]

theorem runAll_eq (m : StatsMap) (batches : List ValCurs) :
    runAll m batches = foldRecords m (flatten batches) := by
  induction batches generalizing m with
  | nil => rfl
  | cons b bs ih =>
    have h1 : runAll m (b :: bs) = runAll (analyzeData m b) bs := rfl
    rw [h1, ih, analyzeData_eq]
    unfold foldRecords flatten
    rw [List.flatMap_cons, List.foldl_append]

theorem finalizeStats_find (m : StatsMap) (c : String) :
    statsFind (finalizeStats m) c =
      (statsFind m c).map
        (fun s => { s with average := s.totalValue.divNat s.count }) := by
  induction m with
  | nil => rfl
  | cons p rest ih =>
    by_cases h : p.1 = c
    · simp [finalizeStats, statsFind, h]
    · simpa [finalizeStats, statsFind, h] using ih

theorem aggRun_filter_ok (o : Option CurrencyStats) (l : List (String × Valute)) :
    aggRun o l = aggRun o (l.filter recOk) := by
  induction l generalizing o with
  | nil => rfl
  | cons p l ih =>
    cases hp : goParseFloat (normalizeRate p.2.value) with
    | none =>
      have hok : recOk p = false := by simp [recOk, hp]
      have hid : stepAgg p.1 p.2 o = o := by simp [stepAgg, hp]
      simp [aggRun, List.filter_cons, hok, hid]
      exact ih o
    | some value =>
      have hok : recOk p = true := by simp [recOk, hp]
      simp [aggRun, List.filter_cons, hok]
      exact ih _

/-! ### Concrete sample records (Scenarios A–D of the spec) -/

/-- A USD record with the given rate text. -/
def usdRec (value : String) : Valute :=
  { id := "R01235", numCode := "840", charCode := "USD", nominal := 1,
    name := "US Dollar", value := value }

/-- A EUR record with the given rate text. -/
def eurRec (value : String) : Valute :=
  { id := "R01239", numCode := "978", charCode := "EUR", nominal := 1,
    name := "Euro", value := value }

/-- A JPY record with the given rate text. -/
def jpyRec (value : String) : Valute :=
  { id := "R01820", numCode := "392", charCode := "JPY", nominal := 100,
    name := "Japanese Yen", value := value }

/-- The aggregate created by folding `{USD, "75,0", 2024-01-01}` into an
empty table. -/
def usd75Stats : CurrencyStats :=
  initStats (.fin (mkRat 75 1)) "2024-01-01" (usdRec "75,0")

/-! ### Claims -/

/-- C1: folding a parseable record of an existing currency adds its value
to the sum, increments the count, updates `maxValue`/`maxDate` to the value
and the record's date exactly when the value is strictly greater than the
current maximum, updates `minValue`/`minDate` exactly when it is strictly
smaller than the current minimum, and in particular a value equal to the
current extreme leaves that extreme and its date unchanged (first
occurrence wins on ties). -/
theorem C1_fold_existing (d : String) (m : StatsMap) (v : Valute)
    (stats : CurrencyStats) (val : GoVal)
    (hl : statsFind m v.charCode = some stats)
    (hp : goParseFloat (normalizeRate v.value) = some val) :
    ∃ s', statsFind (foldValute d m v) v.charCode = some s' ∧
      s'.totalValue = stats.totalValue.add val ∧
      s'.count = stats.count + 1 ∧
      (val.gt stats.maxValue = true → s'.maxValue = val ∧ s'.maxDate = d) ∧
      (val.gt stats.maxValue = false →
        s'.maxValue = stats.maxValue ∧ s'.maxDate = stats.maxDate) ∧
      (val.lt stats.minValue = true → s'.minValue = val ∧ s'.minDate = d) ∧
      (val.lt stats.minValue = false →
        s'.minValue = stats.minValue ∧ s'.minDate = stats.minDate) ∧
      (val = stats.maxValue →
        s'.maxValue = stats.maxValue ∧ s'.maxDate = stats.maxDate) ∧
      (val = stats.minValue →
        s'.minValue = stats.minValue ∧ s'.minDate = stats.minDate) := by
  have hfind : statsFind (foldValute d m v) v.charCode =
      some (updStats stats val d) := by
    rw [foldValute_find, if_pos rfl]
    simp [stepAgg, hp, hl]
  refine ⟨updStats stats val d, hfind, rfl, rfl, ?_, ?_, ?_, ?_, ?_, ?_⟩
  · intro hgt; simp [updStats, hgt]
  · intro hgt; simp [updStats, hgt]
  · intro hlt; simp [updStats, hlt]
  · intro hlt; simp [updStats, hlt]
  · intro heq
    simp only [updStats]
    rw [← heq]
    simp [GoVal.gt, GoVal.lt_irrefl]
  · intro heq
    simp only [updStats]
    rw [← heq]
    simp [GoVal.lt_irrefl]

/-- Witness for C1: Scenario D — a second USD record with the equal value
`75,0` on a later date leaves the extremes and both extreme dates at the
first occurrence, while sum and count still grow. -/
theorem C1_fold_existing_witness :
    statsFind [("USD", usd75Stats)] (usdRec "75,0").charCode = some usd75Stats ∧
    goParseFloat (normalizeRate (usdRec "75,0").value) =
      some (.fin (mkRat 75 1)) ∧
    (∃ s', statsFind (foldValute "2024-01-02" [("USD", usd75Stats)]
        (usdRec "75,0")) (usdRec "75,0").charCode = some s' ∧
      s'.totalValue = usd75Stats.totalValue.add (.fin (mkRat 75 1)) ∧
      s'.count = usd75Stats.count + 1 ∧
      (GoVal.gt (.fin (mkRat 75 1)) usd75Stats.maxValue = true →
        s'.maxValue = .fin (mkRat 75 1) ∧ s'.maxDate = "2024-01-02") ∧
      (GoVal.gt (.fin (mkRat 75 1)) usd75Stats.maxValue = false →
        s'.maxValue = usd75Stats.maxValue ∧ s'.maxDate = usd75Stats.maxDate) ∧
      (GoVal.lt (.fin (mkRat 75 1)) usd75Stats.minValue = true →
        s'.minValue = .fin (mkRat 75 1) ∧ s'.minDate = "2024-01-02") ∧
      (GoVal.lt (.fin (mkRat 75 1)) usd75Stats.minValue = false →
        s'.minValue = usd75Stats.minValue ∧ s'.minDate = usd75Stats.minDate) ∧
      (GoVal.fin (mkRat 75 1) = usd75Stats.maxValue →
        s'.maxValue = usd75Stats.maxValue ∧ s'.maxDate = usd75Stats.maxDate) ∧
      (GoVal.fin (mkRat 75 1) = usd75Stats.minValue →
        s'.minValue = usd75Stats.minValue ∧ s'.minDate = usd75Stats.minDate)) :=
  ⟨by decide, by decide,
    C1_fold_existing "2024-01-02" [("USD", usd75Stats)] (usdRec "75,0")
      usd75Stats (.fin (mkRat 75 1)) (by decide) (by decide)⟩

/-- C4: folding a parseable record of a currency not yet in the table
inserts a fresh aggregate with `minValue = maxValue = v`,
`minDate = maxDate = asOfDate`, `sum = v`, `count = 1` (identity fields
taken from the record, `average` still the Go zero value). -/
theorem C4_fold_new (d : String) (m : StatsMap) (v : Valute) (val : GoVal)
    (hl : statsFind m v.charCode = none)
    (hp : goParseFloat (normalizeRate v.value) = some val) :
    statsFind (foldValute d m v) v.charCode = some
      { maxValue := val, minValue := val, maxDate := d, minDate := d,
        totalValue := val, count := 1, average := GoVal.fin 0,
        nominal := v.nominal, currencyName := v.name, numCode := v.numCode,
        charCode := v.charCode } := by
  rw [foldValute_find, if_pos rfl]
  simp [stepAgg, hp, hl, initStats]

/-- Witness for C4: Scenario C — folding `{JPY, "0,5", 2024-01-01}` into an
empty table creates the aggregate with both extremes `0.5` and both dates
`2024-01-01`. -/
theorem C4_fold_new_witness :
    statsFind ([] : StatsMap) (jpyRec "0,5").charCode = none ∧
    goParseFloat (normalizeRate (jpyRec "0,5").value) =
      some (.fin (mkRat 1 2)) ∧
    statsFind (foldValute "2024-01-01" [] (jpyRec "0,5"))
        (jpyRec "0,5").charCode = some
      { maxValue := .fin (mkRat 1 2), minValue := .fin (mkRat 1 2),
        maxDate := "2024-01-01", minDate := "2024-01-01",
        totalValue := .fin (mkRat 1 2), count := 1, average := GoVal.fin 0,
        nominal := (jpyRec "0,5").nominal,
        currencyName := (jpyRec "0,5").name,
        numCode := (jpyRec "0,5").numCode,
        charCode := (jpyRec "0,5").charCode } :=
  ⟨rfl, by decide,
    C4_fold_new "2024-01-01" [] (jpyRec "0,5") (.fin (mkRat 1 2)) rfl (by decide)⟩

/-- C3: a record whose normalized rate text does not parse performs no
state mutation at all and produces the local `notNumeric` skip signal, and
the remaining records of its batch and all later batches are processed
exactly as if the record were absent. -/
theorem C3_skip (r : Valute)
    (hp : goParseFloat (normalizeRate r.value) = none) :
    (∀ d m, foldValuteE d m r = (m, some SkipReason.notNumeric)) ∧
    (∀ m d vs₁ vs₂ batches,
      runAll (analyzeData m ⟨d, vs₁ ++ r :: vs₂⟩) batches =
        runAll (analyzeData m ⟨d, vs₁ ++ vs₂⟩) batches) := by
  have hE : ∀ d m, foldValuteE d m r = (m, some .notNumeric) := by
    intro d m
    simp [foldValuteE, hp]
  refine ⟨hE, ?_⟩
  intro m d vs₁ vs₂ batches
  have hbatch : analyzeData m ⟨d, vs₁ ++ r :: vs₂⟩ =
      analyzeData m ⟨d, vs₁ ++ vs₂⟩ := by
    unfold analyzeData
    rw [List.foldl_append, List.foldl_cons, List.foldl_append]
    have hid : foldValute d (List.foldl (foldValute d) m vs₁) r =
        List.foldl (foldValute d) m vs₁ := by
      simp [foldValute, hE]
    rw [hid]
  rw [hbatch]

/-- Witness for C3: Scenario B — `{EUR, "abc", 2024-01-01}` yields the
skip signal and leaves the empty table untouched. -/
theorem C3_skip_witness :
    goParseFloat (normalizeRate (eurRec "abc").value) = none ∧
    foldValuteE "2024-01-01" [] (eurRec "abc") =
      ([], some SkipReason.notNumeric) :=
  ⟨by decide, (C3_skip (eurRec "abc") (by decide)).1 "2024-01-01" []⟩

theorem countOf_foldValute (d : String) (m : StatsMap) (v : Valute) (c : String) :
    countOf (foldValute d m v) c =
      countOf m c +
        (if v.charCode = c ∧ (goParseFloat (normalizeRate v.value)).isSome
          then 1 else 0) := by
  unfold countOf
  rw [foldValute_find]
  by_cases h : v.charCode = c
  · subst h
    cases hp : goParseFloat (normalizeRate v.value) with
    | none => simp [stepAgg, hp]
    | some value =>
      cases hf : statsFind m v.charCode with
      | none => simp [stepAgg, hp, hf, initStats]
      | some s => simp [stepAgg, hp, hf, updStats]
  · simp [h]

/-- C5: after folding any record sequence into an empty table, the stored
count of each currency equals the number of records of that currency whose
rate text was numerically parseable after comma normalization. -/
theorem C5_count (l : List (String × Valute)) (c : String) :
    countOf (foldRecords [] l) c =
      l.countP (fun p => decide (p.2.charCode = c) && recOk p) := by
  suffices h : ∀ m, countOf (foldRecords m l) c =
      countOf m c + l.countP (fun p => decide (p.2.charCode = c) && recOk p) by
    simpa [countOf, statsFind] using h []
  induction l with
  | nil =>
    intro m
    simp [foldRecords]
  | cons p l ih =>
    intro m
    have hstep : foldRecords m (p :: l) = foldRecords (foldValute p.1 m p.2) l := rfl
    rw [hstep, ih, countOf_foldValute, List.countP_cons]
    by_cases h : p.2.charCode = c <;>
      by_cases hok : (goParseFloat (normalizeRate p.2.value)).isSome <;>
        (first
          | (simp [h, hok, recOk]; omega)
          | simp [h, hok, recOk])

/-- C7: two fold sequences that are permutations of each other and agree on
the relative order of the records within every currency produce identical
final aggregates for every currency. -/
theorem C7_comm (l₁ l₂ : List (String × Valute))
    (hperm : l₁.Perm l₂)
    (horder : ∀ c, recsOf c l₁ = recsOf c l₂) :
    ∀ c, statsFind (foldRecords [] l₁) c = statsFind (foldRecords [] l₂) c := by
  intro c
  have _hp := hperm
  rw [foldRecords_find, foldRecords_find, horder c]

/-- Witness for C7: swapping a USD and a EUR fold leaves both lookups
unchanged (instantiated at USD). -/
theorem C7_comm_witness :
    statsFind (foldRecords []
      [("2024-01-01", usdRec "75,5"), ("2024-01-01", eurRec "80,0")]) "USD" =
    statsFind (foldRecords []
      [("2024-01-01", eurRec "80,0"), ("2024-01-01", usdRec "75,5")]) "USD" := by
  refine C7_comm _ _ (List.Perm.swap _ _ _) (fun c => ?_) "USD"
  by_cases h1 : "USD" = c <;> by_cases h2 : "EUR" = c
  · exact absurd (h1.trans h2.symm) (by decide)
  · simp [recsOf, List.filter_cons, usdRec, eurRec, h1, h2]
  · simp [recsOf, List.filter_cons, usdRec, eurRec, h1, h2]
  · simp [recsOf, List.filter_cons, usdRec, eurRec, h1, h2]

theorem mem_statsSet (m : StatsMap) (k : String) (s : CurrencyStats)
    (p : String × CurrencyStats) (hp : p ∈ statsSet m k s) :
    p = (k, s) ∨ p ∈ m := by
  induction m with
  | nil => simpa [statsSet] using hp
  | cons q rest ih =>
    obtain ⟨k', v'⟩ := q
    by_cases h : k' = k
    · subst h
      simp only [statsSet, if_pos rfl] at hp
      rcases List.mem_cons.1 hp with h1 | h1
      · exact Or.inl h1
      · exact Or.inr (List.mem_cons.2 (Or.inr h1))
    · simp only [statsSet, if_neg h] at hp
      rcases List.mem_cons.1 hp with h1 | h1
      · exact Or.inr (List.mem_cons.2 (Or.inl h1))
      · rcases ih h1 with h2 | h2
        · exact Or.inl h2
        · exact Or.inr (List.mem_cons.2 (Or.inr h2))

theorem counts_pos (l : List (String × Valute)) :
    ∀ (m : StatsMap), (∀ p ∈ m, 0 < p.2.count) →
      ∀ p ∈ foldRecords m l, 0 < p.2.count := by
  induction l with
  | nil => exact fun m hm => hm
  | cons q l ih =>
    intro m hm
    apply ih
    intro p hp
    change p ∈ foldValute q.1 m q.2 at hp
    cases hgo : goParseFloat (normalizeRate q.2.value) with
    | none =>
      have heq : foldValute q.1 m q.2 = m := by
        simp [foldValute, foldValuteE, hgo]
      rw [heq] at hp
      exact hm p hp
    | some value =>
      cases hf : statsFind m q.2.charCode with
      | none =>
        have heq : foldValute q.1 m q.2 =
            statsSet m q.2.charCode (initStats value q.1 q.2) := by
          simp [foldValute, foldValuteE, hgo, hf]
        rw [heq] at hp
        rcases mem_statsSet _ _ _ _ hp with h | h
        · rw [h]
          exact Nat.zero_lt_one
        · exact hm p h
      | some s =>
        have heq : foldValute q.1 m q.2 =
            statsSet m q.2.charCode (updStats s value q.1) := by
          simp [foldValute, foldValuteE, hgo, hf]
        rw [heq] at hp
        rcases mem_statsSet _ _ _ _ hp with h | h
        · rw [h]
          exact Nat.succ_pos _
        · exact hm p h

theorem finalizeStats_idem (m : StatsMap) :
    finalizeStats (finalizeStats m) = finalizeStats m := by
  induction m with
  | nil => rfl
  | cons p rest ih =>
    have hcons : finalizeStats (finalizeStats (p :: rest)) =
        (p.1, { p.2 with average := p.2.totalValue.divNat p.2.count }) ::
          finalizeStats (finalizeStats rest) := rfl
    rw [hcons, ih]
    rfl

/-- C6: every aggregate in the final table has positive count; the output
loop sets each entry's average to its sum divided by its count, leaving all
other fields unchanged; and recomputing averages a second time with no
intervening fold yields an identical table. -/
theorem C6_finalize (batches : List ValCurs) :
    (∀ p ∈ runAll [] batches, 0 < p.2.count) ∧
    (∀ c s, statsFind (runAll [] batches) c = some s →
      statsFind (finalizeStats (runAll [] batches)) c =
        some { s with average := s.totalValue.divNat s.count }) ∧
    finalizeStats (finalizeStats (runAll [] batches)) =
      finalizeStats (runAll [] batches) := by
  refine ⟨?_, ?_, finalizeStats_idem _⟩
  · rw [runAll_eq]
    exact counts_pos _ [] (by simp)
  · intro c s h
    rw [finalizeStats_find, h]
    rfl

/-- Witness for C6 at the single batch `{USD, "75,0", 2024-01-01}`: the
USD entry has positive count, its finalized average is `sum / count`, and
finalization is idempotent. -/
theorem C6_finalize_witness :
    0 < usd75Stats.count ∧
    statsFind (finalizeStats (runAll [] [⟨"2024-01-01", [usdRec "75,0"]⟩])) "USD" =
      some { usd75Stats with
        average := usd75Stats.totalValue.divNat usd75Stats.count } ∧
    finalizeStats (finalizeStats (runAll [] [⟨"2024-01-01", [usdRec "75,0"]⟩])) =
      finalizeStats (runAll [] [⟨"2024-01-01", [usdRec "75,0"]⟩]) := by
  refine ⟨?_, ?_, (C6_finalize _).2.2⟩
  · exact (C6_finalize [⟨"2024-01-01", [usdRec "75,0"]⟩]).1
      ("USD", usd75Stats) (by decide)
  · exact (C6_finalize [⟨"2024-01-01", [usdRec "75,0"]⟩]).2.1
      "USD" usd75Stats (by decide)

theorem aggRun_bounds_some (l : List (String × Valute)) :
    ∀ (s : CurrencyStats),
      s.minValue ≠ .nan → s.maxValue ≠ .nan →
      (∀ v ∈ valsOf l, v ≠ GoVal.nan) →
      ∃ s', aggRun (some s) l = some s' ∧
        s'.minValue ≠ .nan ∧ s'.maxValue ≠ .nan ∧
        s'.minValue.le s.minValue = true ∧ s.maxValue.le s'.maxValue = true ∧
        ∀ v ∈ valsOf l, s'.minValue.le v = true ∧ v.le s'.maxValue = true := by
  induction l with
  | nil =>
    intro s h1 h2 _
    exact ⟨s, rfl, h1, h2, GoVal.le_refl h1, GoVal.le_refl h2, by simp [valsOf]⟩
  | cons p l ih =>
    intro s h1 h2 hnn
    cases hp : goParseFloat (normalizeRate p.2.value) with
    | none =>
      have hstep : aggRun (some s) (p :: l) = aggRun (some s) l := by
        simp [aggRun, stepAgg, hp]
      have hv : valsOf (p :: l) = valsOf l := by simp [valsOf, hp]
      rw [hv] at hnn
      obtain ⟨s', hrun, hn1, hn2, hle1, hle2, hvals⟩ := ih s h1 h2 hnn
      exact ⟨s', hstep ▸ hrun, hn1, hn2, hle1, hle2, hv ▸ hvals⟩
    | some v =>
      have hvmem : v ∈ valsOf (p :: l) := by simp [valsOf, hp]
      have hvne : v ≠ .nan := hnn v hvmem
      have hstep : aggRun (some s) (p :: l) =
          aggRun (some (updStats s v p.1)) l := by
        simp [aggRun, stepAgg, hp]
      have h1' : (updStats s v p.1).minValue ≠ .nan := by
        simp only [updStats]
        split
        · exact hvne
        · exact h1
      have h2' : (updStats s v p.1).maxValue ≠ .nan := by
        simp only [updStats]
        split
        · exact hvne
        · exact h2
      have hminle : GoVal.le (updStats s v p.1).minValue s.minValue = true := by
        simp only [updStats]
        split
        · exact GoVal.lt_imp_le (by assumption)
        · exact GoVal.le_refl h1
      have hminv : GoVal.le (updStats s v p.1).minValue v = true := by
        simp only [updStats]
        split
        · exact GoVal.le_refl hvne
        · rename_i hlt
          exact GoVal.le_of_not_lt hvne h1 (by simpa using hlt)
      have hmaxge : GoVal.le s.maxValue (updStats s v p.1).maxValue = true := by
        simp only [updStats]
        split
        · rename_i hgt
          exact GoVal.lt_imp_le hgt
        · exact GoVal.le_refl h2
      have hmaxv : GoVal.le v (updStats s v p.1).maxValue = true := by
        simp only [updStats]
        split
        · exact GoVal.le_refl hvne
        · rename_i hgt
          exact GoVal.le_of_not_lt h2 hvne (by simpa using hgt)
      have hval_cons : valsOf (p :: l) = v :: valsOf l := by
        simp [valsOf, List.filterMap_cons, hp]
      have hnn' : ∀ w ∈ valsOf l, w ≠ GoVal.nan := fun w hw =>
        hnn w (hval_cons ▸ List.mem_cons_of_mem _ hw)
      obtain ⟨s', hrun, hn1, hn2, hle1, hle2, hvals⟩ := ih (updStats s v p.1) h1' h2' hnn'
      refine ⟨s', hstep ▸ hrun, hn1, hn2,
        GoVal.le_trans hle1 hminle, GoVal.le_trans hmaxge hle2, ?_⟩
      intro w hw
      have hw' : w = v ∨ w ∈ valsOf l := by
        simpa [valsOf, hp] using hw
      rcases hw' with rfl | hw'
      · exact ⟨GoVal.le_trans hle1 hminv, GoVal.le_trans hmaxv hle2⟩
      · exact hvals w hw'

theorem aggRun_bounds_none (l : List (String × Valute))
    (hnn : ∀ v ∈ valsOf l, v ≠ GoVal.nan) :
    ∀ s', aggRun none l = some s' →
      s'.minValue ≠ .nan ∧ s'.maxValue ≠ .nan ∧
      ∀ v ∈ valsOf l, s'.minValue.le v = true ∧ v.le s'.maxValue = true := by
  induction l with
  | nil =>
    intro s' h
    exact absurd h (by simp [aggRun])
  | cons p l ih =>
    intro s' h
    cases hp : goParseFloat (normalizeRate p.2.value) with
    | none =>
      have hstep : aggRun none (p :: l) = aggRun none l := by
        simp [aggRun, stepAgg, hp]
      rw [hstep] at h
      have hv : valsOf (p :: l) = valsOf l := by simp [valsOf, hp]
      rw [hv] at hnn
      have hres := ih hnn s' h
      exact ⟨hres.1, hres.2.1, hv ▸ hres.2.2⟩
    | some v =>
      have hvne : v ≠ .nan := hnn v (by simp [valsOf, hp])
      have hstep : aggRun none (p :: l) =
          aggRun (some (initStats v p.1 p.2)) l := by
        simp [aggRun, stepAgg, hp]
      rw [hstep] at h
      have hval_cons : valsOf (p :: l) = v :: valsOf l := by
        simp [valsOf, List.filterMap_cons, hp]
      have hnn' : ∀ w ∈ valsOf l, w ≠ GoVal.nan := fun w hw =>
        hnn w (hval_cons ▸ List.mem_cons_of_mem _ hw)
      obtain ⟨s'', hrun, hn1, hn2, hle1, hle2, hvals⟩ :=
        aggRun_bounds_some l (initStats v p.1 p.2) hvne hvne hnn'
      rw [hrun] at h
      obtain rfl : s'' = s' := by injection h
      refine ⟨hn1, hn2, ?_⟩
      intro w hw
      have hw' : w = v ∨ w ∈ valsOf l := by
        simpa [valsOf, hp] using hw
      rcases hw' with rfl | hw'
      · exact ⟨hle1, hle2⟩
      · exact hvals w hw'

/-- Counterexample to C2 as stated: `"NaN"` parses successfully (so NaN is
a folded value of USD), yet the resulting aggregate does not satisfy
`minValue ≤ NaN ≤ maxValue`, because no IEEE comparison involving NaN
holds. -/
theorem C2_counterexample :
    GoVal.nan ∈ parsedValues "USD" [("2024-01-01", usdRec "NaN")] ∧
    statsFind (foldRecords [] [("2024-01-01", usdRec "NaN")]) "USD" =
      some (initStats .nan "2024-01-01" (usdRec "NaN")) ∧
    ((initStats GoVal.nan "2024-01-01" (usdRec "NaN")).minValue.le .nan &&
      GoVal.le .nan (initStats GoVal.nan "2024-01-01" (usdRec "NaN")).maxValue)
      = false := ⟨by decide, by decide, by decide⟩

/-- C2 amended: provided no folded value of the currency is NaN (which
`"NaN"` rate texts would produce), every value successfully parsed and
folded for that currency lies between the final `minValue` and `maxValue`
of its aggregate. -/
theorem C2_bounds (l : List (String × Valute)) (c : String)
    (hnn : ∀ v ∈ parsedValues c l, v ≠ GoVal.nan) :
    ∀ s, statsFind (foldRecords [] l) c = some s →
      ∀ v ∈ parsedValues c l,
        s.minValue.le v = true ∧ v.le s.maxValue = true := by
  intro s hfind v hv
  rw [foldRecords_find] at hfind
  exact (aggRun_bounds_none (recsOf c l) hnn s hfind).2.2 v hv

/-- Scenario A of the spec: three USD records on consecutive days. -/
def scenarioA : List (String × Valute) :=
  [("2024-01-01", usdRec "75,5"), ("2024-01-02", usdRec "76,2"),
    ("2024-01-03", usdRec "74,0")]

/-- The USD aggregate after folding Scenario A. -/
def scenarioAStats : CurrencyStats :=
  { maxValue := .fin (mkRat 381 5), minValue := .fin (mkRat 74 1),
    maxDate := "2024-01-02", minDate := "2024-01-03",
    totalValue := .fin (mkRat 2257 10), count := 3, average := .fin 0,
    nominal := 1, currencyName := "US Dollar", numCode := "840",
    charCode := "USD" }

/-- Witness for the amended C2 at Scenario A: `75.5` lies between the
final extremes `74` and `76.2`. -/
theorem C2_bounds_witness :
    statsFind (foldRecords [] scenarioA) "USD" = some scenarioAStats ∧
    GoVal.fin (mkRat 755 10) ∈ parsedValues "USD" scenarioA ∧
    scenarioAStats.minValue.le (.fin (mkRat 755 10)) = true ∧
    GoVal.le (.fin (mkRat 755 10)) scenarioAStats.maxValue = true := by
  have h := C2_bounds scenarioA "USD" (by decide) scenarioAStats (by decide)
    (GoVal.fin (mkRat 755 10)) (by decide)
  exact ⟨by decide, by decide, h.1, h.2⟩

theorem valsOf_length (l : List (String × Valute)) :
    (valsOf l).length = (l.filter recOk).length := by
  induction l with
  | nil => rfl
  | cons p l ih =>
    cases hp : goParseFloat (normalizeRate p.2.value) with
    | none =>
      have hok : recOk p = false := by simp [recOk, hp]
      have hvl : valsOf (p :: l) = valsOf l := by
        simp [valsOf, List.filterMap_cons, hp]
      rw [hvl, List.filter_cons, hok]
      simpa using ih
    | some v =>
      have hok : recOk p = true := by simp [recOk, hp]
      have hvl : valsOf (p :: l) = v :: valsOf l := by
        simp [valsOf, List.filterMap_cons, hp]
      rw [hvl, List.filter_cons, hok]
      simpa using ih

theorem mem_valDates {v : GoVal} {d : String} {l : List (String × Valute)}
    (h : (v, d) ∈ valDates l) :
    ∃ q ∈ l, q.1 = d ∧ goParseFloat (normalizeRate q.2.value) = some v := by
  unfold valDates at h
  rcases List.mem_filterMap.1 h with ⟨q, hq, hmap⟩
  cases hp : goParseFloat (normalizeRate q.2.value) with
  | none =>
    rw [hp] at hmap
    simp at hmap
  | some w =>
    rw [hp] at hmap
    obtain ⟨rfl, rfl⟩ : w = v ∧ q.1 = d := by simpa using hmap
    exact ⟨q, hq, rfl, hp⟩

theorem aggRun_some_spec (l : List (String × Valute)) :
    ∀ (s : CurrencyStats), ∃ s', aggRun (some s) l = some s' ∧
      s'.charCode = s.charCode ∧ s'.currencyName = s.currencyName ∧
      s'.numCode = s.numCode ∧ s'.nominal = s.nominal ∧
      s'.average = s.average ∧
      s'.count = s.count + (valsOf l).length ∧
      ((s'.maxValue = s.maxValue ∧ s'.maxDate = s.maxDate) ∨
        (s'.maxValue, s'.maxDate) ∈ valDates l) ∧
      ((s'.minValue = s.minValue ∧ s'.minDate = s.minDate) ∨
        (s'.minValue, s'.minDate) ∈ valDates l) := by
  induction l with
  | nil =>
    intro s
    exact ⟨s, rfl, rfl, rfl, rfl, rfl, rfl, by simp [valsOf],
      Or.inl ⟨rfl, rfl⟩, Or.inl ⟨rfl, rfl⟩⟩
  | cons p l ih =>
    intro s
    cases hp : goParseFloat (normalizeRate p.2.value) with
    | none =>
      have hstep : aggRun (some s) (p :: l) = aggRun (some s) l := by
        simp [aggRun, stepAgg, hp]
      have hvd : valDates (p :: l) = valDates l := by
        simp [valDates, List.filterMap_cons, hp]
      have hvl : valsOf (p :: l) = valsOf l := by
        simp [valsOf, List.filterMap_cons, hp]
      obtain ⟨s', hrun, h1, h2, h3, h4, h5, h6, h7, h8⟩ := ih s
      exact ⟨s', hstep ▸ hrun, h1, h2, h3, h4, h5, by rw [hvl]; exact h6,
        by rw [hvd]; exact h7, by rw [hvd]; exact h8⟩
    | some v =>
      have hstep : aggRun (some s) (p :: l) =
          aggRun (some (updStats s v p.1)) l := by
        simp [aggRun, stepAgg, hp]
      have hvd : valDates (p :: l) = (v, p.1) :: valDates l := by
        simp [valDates, List.filterMap_cons, hp]
      have hvl : valsOf (p :: l) = v :: valsOf l := by
        simp [valsOf, List.filterMap_cons, hp]
      obtain ⟨s', hrun, h1, h2, h3, h4, h5, h6, h7, h8⟩ := ih (updStats s v p.1)
      have hcnt : (updStats s v p.1).count = s.count + 1 := rfl
      refine ⟨s', hstep ▸ hrun, h1, h2, h3, h4, h5, ?_, ?_, ?_⟩
      · rw [hcnt] at h6
        rw [hvl, List.length_cons]
        omega
      · rw [hvd]
        rcases h7 with ⟨ha, hb⟩ | hmem
        · by_cases hgt : v.gt s.maxValue = true
          · have hv1 : (updStats s v p.1).maxValue = v := by
              simp [updStats, hgt]
            have hv2 : (updStats s v p.1).maxDate = p.1 := by
              simp [updStats, hgt]
            exact Or.inr (by
              rw [ha, hb, hv1, hv2]
              exact List.mem_cons_self _ _)
          · have hv1 : (updStats s v p.1).maxValue = s.maxValue := by
              simp [updStats, hgt]
            have hv2 : (updStats s v p.1).maxDate = s.maxDate := by
              simp [updStats, hgt]
            exact Or.inl ⟨ha.trans hv1, hb.trans hv2⟩
        · exact Or.inr (List.mem_cons_of_mem _ hmem)
      · rw [hvd]
        rcases h8 with ⟨ha, hb⟩ | hmem
        · by_cases hlt : v.lt s.minValue = true
          · have hv1 : (updStats s v p.1).minValue = v := by
              simp [updStats, hlt]
            have hv2 : (updStats s v p.1).minDate = p.1 := by
              simp [updStats, hlt]
            exact Or.inr (by
              rw [ha, hb, hv1, hv2]
              exact List.mem_cons_self _ _)
          · have hv1 : (updStats s v p.1).minValue = s.minValue := by
              simp [updStats, hlt]
            have hv2 : (updStats s v p.1).minDate = s.minDate := by
              simp [updStats, hlt]
            exact Or.inl ⟨ha.trans hv1, hb.trans hv2⟩
        · exact Or.inr (List.mem_cons_of_mem _ hmem)

theorem aggRun_none_spec (l : List (String × Valute)) :
    ∀ p₀ rest, l.filter recOk = p₀ :: rest →
      ∃ v₀ s', goParseFloat (normalizeRate p₀.2.value) = some v₀ ∧
        aggRun none l = some s' ∧
        s'.charCode = p₀.2.charCode ∧ s'.currencyName = p₀.2.name ∧
        s'.numCode = p₀.2.numCode ∧ s'.nominal = p₀.2.nominal ∧
        s'.average = GoVal.fin 0 ∧
        s'.count = (valsOf l).length ∧
        (s'.maxValue, s'.maxDate) ∈ valDates l ∧
        (s'.minValue, s'.minDate) ∈ valDates l := by
  induction l with
  | nil =>
    intro p₀ rest h
    simp at h
  | cons p l ih =>
    intro p₀ rest hf
    cases hp : goParseFloat (normalizeRate p.2.value) with
    | none =>
      have hok : recOk p = false := by simp [recOk, hp]
      rw [List.filter_cons, hok] at hf
      simp only [Bool.false_eq_true, if_false] at hf
      have hstep : aggRun none (p :: l) = aggRun none l := by
        simp [aggRun, stepAgg, hp]
      have hvd : valDates (p :: l) = valDates l := by
        simp [valDates, List.filterMap_cons, hp]
      have hvl : valsOf (p :: l) = valsOf l := by
        simp [valsOf, List.filterMap_cons, hp]
      obtain ⟨v₀, s', hv₀, hrun, h1, h2, h3, h4, h5, h6, h7, h8⟩ := ih p₀ rest hf
      exact ⟨v₀, s', hv₀, hstep ▸ hrun, h1, h2, h3, h4, h5,
        by rw [hvl]; exact h6, by rw [hvd]; exact h7, by rw [hvd]; exact h8⟩
    | some v =>
      have hok : recOk p = true := by simp [recOk, hp]
      rw [List.filter_cons, hok] at hf
      simp only [if_true] at hf
      obtain ⟨rfl, rfl⟩ : p = p₀ ∧ l.filter recOk = rest := by
        constructor
        · exact (List.cons_eq_cons.1 hf).1
        · exact (List.cons_eq_cons.1 hf).2
      have hstep : aggRun none (p :: l) =
          aggRun (some (initStats v p.1 p.2)) l := by
        simp [aggRun, stepAgg, hp]
      have hvd : valDates (p :: l) = (v, p.1) :: valDates l := by
        simp [valDates, List.filterMap_cons, hp]
      have hvl : valsOf (p :: l) = v :: valsOf l := by
        simp [valsOf, List.filterMap_cons, hp]
      obtain ⟨s', hrun, h1, h2, h3, h4, h5, h6, h7, h8⟩ :=
        aggRun_some_spec l (initStats v p.1 p.2)
      refine ⟨v, s', hp, hstep ▸ hrun, h1, h2, h3, h4, h5, ?_, ?_, ?_⟩
      · rw [hvl, List.length_cons]
        have hcnt : (initStats v p.1 p.2).count = 1 := rfl
        rw [hcnt] at h6
        omega
      · rw [hvd]
        rcases h7 with ⟨ha, hb⟩ | hmem
        · exact (by
            rw [ha, hb]
            exact List.mem_cons_self _ _)
        · exact List.mem_cons_of_mem _ hmem
      · rw [hvd]
        rcases h8 with ⟨ha, hb⟩ | hmem
        · exact (by
            rw [ha, hb]
            exact List.mem_cons_self _ _)
        · exact List.mem_cons_of_mem _ hmem

/-- C8: for every currency observed at least once (its first successfully
parsed record being `p₀`), the finalized table yields an aggregate carrying
the currency code, the display name and numeric code fixed at the first
observation, a positive count, an average equal to sum divided by count,
and min and max values each paired with the date of a folded record that
attained that extreme. -/
theorem C8_finalize_fields (l : List (String × Valute)) (c : String)
    (p₀ : String × Valute) (rest : List (String × Valute))
    (hobs : succRecsOf c l = p₀ :: rest) :
    ∃ s, statsFind (finalizeStats (foldRecords [] l)) c = some s ∧
      s.charCode = c ∧ s.currencyName = p₀.2.name ∧ s.numCode = p₀.2.numCode ∧
      0 < s.count ∧ s.average = s.totalValue.divNat s.count ∧
      (∃ q ∈ succRecsOf c l, q.1 = s.maxDate ∧
        goParseFloat (normalizeRate q.2.value) = some s.maxValue) ∧
      (∃ q ∈ succRecsOf c l, q.1 = s.minDate ∧
        goParseFloat (normalizeRate q.2.value) = some s.minValue) := by
  have hp₀ : p₀ ∈ succRecsOf c l := by
    rw [hobs]
    exact List.mem_cons_self _ _
  have hp₀r : p₀ ∈ recsOf c l := List.mem_of_mem_filter hp₀
  have hcc : p₀.2.charCode = c := by
    have hmf := List.mem_filter.1 hp₀r
    simpa using hmf.2
  obtain ⟨v₀, s₀, hv₀, hrun, h1, h2, h3, h4, h5, h6, h7, h8⟩ :=
    aggRun_none_spec (recsOf c l) p₀ rest hobs
  have hfind : statsFind (foldRecords [] l) c = some s₀ := by
    rw [foldRecords_find]
    exact hrun
  refine ⟨{ s₀ with average := s₀.totalValue.divNat s₀.count }, ?_, ?_, h2, h3,
    ?_, rfl, ?_, ?_⟩
  · rw [finalizeStats_find, hfind]
    rfl
  · exact h1.trans hcc
  · rw [show ({ s₀ with average := s₀.totalValue.divNat s₀.count} :
      CurrencyStats).count = s₀.count from rfl, h6, valsOf_length]
    rw [show (recsOf c l).filter recOk = succRecsOf c l from rfl, hobs]
    simp
  · obtain ⟨q, hqmem, hqd, hqparse⟩ := mem_valDates h7
    refine ⟨q, ?_, hqd, hqparse⟩
    exact List.mem_filter.2 ⟨hqmem, by simp [recOk, hqparse]⟩
  · obtain ⟨q, hqmem, hqd, hqparse⟩ := mem_valDates h8
    refine ⟨q, ?_, hqd, hqparse⟩
    exact List.mem_filter.2 ⟨hqmem, by simp [recOk, hqparse]⟩

/-- Witness for C8 at Scenario A: USD is observed, and the finalized USD
aggregate carries name, codes, positive count, the computed average, and
dated extremes. -/
theorem C8_finalize_fields_witness :
    succRecsOf "USD" scenarioA = ("2024-01-01", usdRec "75,5") ::
      [("2024-01-02", usdRec "76,2"), ("2024-01-03", usdRec "74,0")] ∧
    (∃ s, statsFind (finalizeStats (foldRecords [] scenarioA)) "USD" = some s ∧
      s.charCode = "USD" ∧ s.currencyName = (usdRec "75,5").name ∧
      s.numCode = (usdRec "75,5").numCode ∧
      0 < s.count ∧ s.average = s.totalValue.divNat s.count ∧
      (∃ q ∈ succRecsOf "USD" scenarioA, q.1 = s.maxDate ∧
        goParseFloat (normalizeRate q.2.value) = some s.maxValue) ∧
      (∃ q ∈ succRecsOf "USD" scenarioA, q.1 = s.minDate ∧
        goParseFloat (normalizeRate q.2.value) = some s.minValue)) :=
  ⟨by decide, C8_finalize_fields scenarioA "USD" ("2024-01-01", usdRec "75,5")
    [("2024-01-02", usdRec "76,2"), ("2024-01-03", usdRec "74,0")] (by decide)⟩

/-! ### Structural facts about the parser, for C9 -/

/-- Number of occurrences of a character in a list. -/
def charCount (a : Char) : List Char → Nat
  | [] => 0
  | c :: cs => (if c = a then 1 else 0) + charCount a cs

theorem readSign_dots (cs : List Char) :
    charCount '.' (readSign cs).2.2 = charCount '.' cs := by
  cases cs with
  | nil => rfl
  | cons c cs =>
    by_cases h1 : c = '+'
    · subst h1
      simp [readSign, charCount]
    · by_cases h2 : c = '-'
      · subst h2
        simp [readSign, charCount]
      · simp [readSign, h1, h2]

theorem dots_le_map_goLower (l : List Char) :
    charCount '.' l ≤ charCount '.' (l.map goLower) := by
  induction l with
  | nil => exact Nat.le_refl 0
  | cons c l ih =>
    by_cases h : c = '.'
    · subst h
      have hg : goLower '.' = '.' := by decide
      simpa [charCount, hg] using ih
    · by_cases hg : goLower c = '.'
      · simp [charCount, h, hg]
        omega
      · simpa [charCount, h, hg] using ih

theorem special_dots (cs : List Char) (h : 2 ≤ charCount '.' cs) :
    special cs = none := by
  rcases hrs : readSign cs with ⟨neg, sawS, rest⟩
  have hrd : charCount '.' rest = charCount '.' cs := by
    have hd := readSign_dots cs
    rw [hrs] at hd
    exact hd
  have hmap : 2 ≤ charCount '.' (rest.map goLower) :=
    le_trans (by omega) (dots_le_map_goLower rest)
  have h1 : ¬(rest.map goLower = "inf".data) := by
    intro he
    rw [he] at hmap
    have hz : charCount '.' "inf".data = 0 := by decide
    omega
  have h2 : ¬(rest.map goLower = "infinity".data) := by
    intro he
    rw [he] at hmap
    have hz : charCount '.' "infinity".data = 0 := by decide
    omega
  have h3 : ¬(rest.map goLower = "nan".data) := by
    intro he
    rw [he] at hmap
    have hz : charCount '.' "nan".data = 0 := by decide
    omega
  unfold special
  rw [hrs]
  simp [h1, h2, h3]

theorem digitVal_dot (base : Nat) : digitVal base '.' = none := by
  unfold digitVal
  split
  · decide
  · decide

theorem scanMant_dots (base : Nat) :
    ∀ (cs : List Char) (sawdot sawdig us : Bool) (mant adot : Nat),
      charCount '.' cs ≤
        charCount '.' (scanMant base sawdot sawdig us mant adot cs).rest +
          (if sawdot then 0 else 1) := by
  intro cs
  induction cs with
  | nil =>
    intro sawdot sawdig us mant adot
    simp [scanMant, charCount]
  | cons c cs ih =>
    intro sawdot sawdig us mant adot
    by_cases h1 : c = '_'
    · subst h1
      have hne : ('_' : Char) ≠ '.' := by decide
      have := ih sawdot sawdig true mant adot
      simpa [scanMant, charCount, hne] using this
    · by_cases h2 : c = '.'
      · subst h2
        cases hsd : sawdot with
        | true =>
          simp [scanMant, h1, hsd, charCount]
        | false =>
          have := ih true sawdig us mant adot
          simp [scanMant, h1, hsd, charCount] at this ⊢
          omega
      · cases hd : digitVal base c with
        | some d =>
          have := ih sawdot true us (mant * base + d)
            (if sawdot then adot + 1 else adot)
          simpa [scanMant, h1, h2, hd, charCount] using this
        | none =>
          simp [scanMant, h1, h2, hd, charCount]

theorem scanExpDigits_dots :
    ∀ (cs : List Char) (us : Bool) (e : Nat),
      charCount '.' (scanExpDigits us e cs).rest = charCount '.' cs := by
  intro cs
  induction cs with
  | nil => intro us e; rfl
  | cons c cs ih =>
    intro us e
    by_cases h1 : c = '_'
    · subst h1
      have hne : ('_' : Char) ≠ '.' := by decide
      simpa [scanExpDigits, charCount, hne] using ih true e
    · cases hd : decVal c with
      | some d =>
        have hne : c ≠ '.' := by
          intro he
          subst he
          rw [show decVal '.' = none from by decide] at hd
          cases hd
        simpa [scanExpDigits, h1, hd, charCount, hne] using
          ih us (if e < 10000 then e * 10 + d else e)
      | none =>
        simp [scanExpDigits, h1, hd, charCount]

theorem parseExp_dots (cs : List Char) (e : Int) (us : Bool) (r : List Char)
    (h : parseExp cs = some (e, us, r)) :
    charCount '.' r = charCount '.' cs := by
  rcases hrs : readSign cs with ⟨eneg, sawS, cs1⟩
  have hrd : charCount '.' cs1 = charCount '.' cs := by
    have hd := readSign_dots cs
    rw [hrs] at hd
    exact hd
  unfold parseExp at h
  rw [hrs] at h
  cases cs1 with
  | nil => simp at h
  | cons c cs2 =>
    by_cases hd : (decVal c).isSome = true
    · simp only [hd, if_true] at h
      injection h with h'
      cases h'
      rw [scanExpDigits_dots]
      exact hrd
    · simp [hd] at h

theorem expPartOf_dots (base : Nat) (rest : List Char)
    (h : 1 ≤ charCount '.' rest) : expPartOf base rest = none := by
  cases rest with
  | nil => simp [charCount] at h
  | cons c r =>
    by_cases hc : c = '.'
    · subst hc
      have h1 : ¬(goLower '.' = 'p') := by decide
      have h2 : ¬(goLower '.' = 'e') := by decide
      unfold expPartOf
      by_cases hb : base = 16 <;> simp [hb, h1, h2]
    · have hr : 1 ≤ charCount '.' r := by
        simpa [charCount, hc] using h
      unfold expPartOf
      cases hpe : parseExp r with
      | none =>
        by_cases hb : base = 16 <;>
          by_cases hg : goLower c = 'p' <;>
            by_cases hg2 : goLower c = 'e' <;>
              simp [hb, hg, hg2, hpe]
      | some t =>
        obtain ⟨e, us, rr⟩ := t
        have hrd : charCount '.' rr = charCount '.' r := parseExp_dots r e us rr hpe
        rcases rr with _ | ⟨c2, rr2⟩
        · rw [show charCount '.' ([] : List Char) = 0 from rfl] at hrd
          omega
        · by_cases hb : base = 16 <;>
            by_cases hg : goLower c = 'p' <;>
              by_cases hg2 : goLower c = 'e' <;>
                simp [hb, hg, hg2, hpe]

theorem readFloatNum_dots (cs : List Char) (neg : Bool) (base : Nat)
    (cs2 : List Char) (h : 2 ≤ charCount '.' cs2) :
    readFloatNum cs neg base cs2 = none := by
  have hm := scanMant_dots base cs2 false false false 0 0
  have hexp : expPartOf base (scanMant base false false false 0 0 cs2).rest = none := by
    apply expPartOf_dots
    simp at hm
    omega
  unfold readFloatNum
  by_cases hs : (scanMant base false false false 0 0 cs2).sawdig = false
  · simp [hs]
  · simp [hs, hexp]

theorem readFloat_dots (cs : List Char) (h : 2 ≤ charCount '.' cs) :
    readFloat cs = none := by
  rcases hrs : readSign cs with ⟨neg, sawS, cs1⟩
  have hd : charCount '.' cs1 = charCount '.' cs := by
    have hd0 := readSign_dots cs
    rw [hrs] at hd0
    exact hd0
  unfold readFloat
  rw [hrs]
  rcases cs1 with _ | ⟨c, _ | ⟨x, rest⟩⟩
  · exact absurd h (by simp [charCount] at hd; omega)
  · exact readFloatNum_dots cs neg 10 [c] (by omega)
  · by_cases h0 : c = '0' ∧ goLower x = 'x'
    · simp only [h0, if_true]
      apply readFloatNum_dots
      have hc : c ≠ '.' := by
        rw [h0.1]
        decide
      have hx : x ≠ '.' := by
        intro hxe
        rw [hxe] at h0
        exact absurd h0.2 (by decide)
      have hcount : charCount '.' (c :: x :: rest) = charCount '.' rest := by
        simp [charCount, hc, hx]
      omega
    · simp only [h0, if_false]
      exact readFloatNum_dots cs neg 10 (c :: x :: rest) (by omega)

theorem charCount_normalize (l : List Char) :
    charCount '.' (l.map (fun c => if c = ',' then '.' else c)) =
      charCount '.' l + charCount ',' l := by
  induction l with
  | nil => rfl
  | cons c l ih =>
    by_cases h1 : c = ','
    · subst h1
      simp [charCount, ih]
      omega
    · by_cases h2 : c = '.'
      · subst h2
        simp [charCount, h1, ih]
        omega
      · simp [charCount, h1, h2, ih]

theorem goParseFloat_dots (s : String) (h : 2 ≤ charCount '.' s.data) :
    goParseFloat s = none := by
  unfold goParseFloat
  rw [special_dots s.data h, readFloat_dots s.data h]

/-- C9: normalization replaces every comma with a period (the periods of
the normalized text are exactly the periods plus the commas of the
original), so a rate text with more than one comma normalizes to a string
with more than one period, fails numeric parsing, and the record is
skipped rather than folded. -/
theorem C9_multi_comma (v : Valute) (d : String) (m : StatsMap)
    (h2 : 2 ≤ charCount ',' v.value.data) :
    charCount '.' (normalizeRate v.value).data =
      charCount '.' v.value.data + charCount ',' v.value.data ∧
    2 ≤ charCount '.' (normalizeRate v.value).data ∧
    goParseFloat (normalizeRate v.value) = none ∧
    foldValuteE d m v = (m, some SkipReason.notNumeric) := by
  have hn : (normalizeRate v.value).data =
      v.value.data.map (fun c => if c = ',' then '.' else c) := rfl
  have h1 : charCount '.' (normalizeRate v.value).data =
      charCount '.' v.value.data + charCount ',' v.value.data := by
    rw [hn, charCount_normalize]
  have hge : 2 ≤ charCount '.' (normalizeRate v.value).data := by
    rw [h1]
    omega
  have hpf : goParseFloat (normalizeRate v.value) = none :=
    goParseFloat_dots _ hge
  exact ⟨h1, hge, hpf, by simp [foldValuteE, hpf]⟩

/-- Witness for C9: the thousands-grouped rate text `"1,234,56"`
normalizes to `"1.234.56"`, fails to parse, and is skipped. -/
theorem C9_multi_comma_witness :
    2 ≤ charCount ',' (usdRec "1,234,56").value.data ∧
    normalizeRate (usdRec "1,234,56").value = "1.234.56" ∧
    goParseFloat (normalizeRate (usdRec "1,234,56").value) = none ∧
    foldValuteE "2024-01-01" [] (usdRec "1,234,56") =
      ([], some SkipReason.notNumeric) := by
  have h := C9_multi_comma (usdRec "1,234,56") "2024-01-01" [] (by decide)
  exact ⟨by decide, by decide, h.2.2.1, h.2.2.2⟩

/-- C10: the fold skips a record exactly when the comma-normalized rate
text is rejected by the float parser; the parser accepts `"NaN"`, `"Inf"`
and exponent notation, and such records are folded — here a `"NaN"` record
of an existing currency is added to the sum (making it NaN), increments the
count, and passes through the extreme comparisons (both false for NaN, so
the extremes stay) instead of being skipped. -/
theorem C10_parser_boundary :
    (∀ d m v, (foldValuteE d m v).2 = some SkipReason.notNumeric ↔
      goParseFloat (normalizeRate v.value) = none) ∧
    goParseFloat "NaN" = some .nan ∧
    goParseFloat "Inf" = some (.inf false) ∧
    goParseFloat (normalizeRate "7,5e1") = some (.fin (mkRat 75 1)) ∧
    statsFind (foldValute "2024-01-02" [("USD", usd75Stats)] (usdRec "NaN"))
        "USD" = some { usd75Stats with totalValue := .nan, count := 2 } := by
  refine ⟨?_, by decide, by decide, by decide, by decide⟩
  intro d m v
  cases hp : goParseFloat (normalizeRate v.value) with
  | none => simp [foldValuteE, hp]
  | some value =>
    cases hf : statsFind m v.charCode <;> simp [foldValuteE, hp, hf]

end ExchangeRates
